import Mathlib

/-!
Verification development for the CrossOSClipboard transfer protocol.

Shallow embedding of the protocol core:
  * `ByteUtils` (big-endian integer codec),
  * `MessageProtocol` (framing: `encodeMessage`, `decodeData`,
    `chunkedData`, `cleanupPartialMessages`),
  * `ClipboardEncryption` (`encrypt` / `decrypt`, with the BCrypt AEAD
    primitives abstracted as a `CryptoBackend`),
  * the BLE sender's adaptive inter-frame delay from `BLEManager::sendMessage`.

Bytes are modelled as `Nat` (wire bytes are always `< 256`; the codec
applies `% 256` exactly where the source truncates to `uint8_t`).
Machine-integer truncation (`uint32_t`, `uint16_t`, `uint64_t`) is modelled
with explicit `% 2^w`.  The process-global mutable state of
`MessageProtocol` (the reassembly maps) and of `ClipboardEncryption`
(the symmetric key) is passed explicitly.
-/

namespace CrossOSClipboard

set_option maxRecDepth 10000

/-! ## ByteUtils (src/Windows/src/ByteUtils.cpp) -/

/-- `ByteUtils::uint32ToBytes`: big-endian 4-byte encoding of a `uint32_t`.
The `% 2^32` models the `uint32_t` argument type; `% 256` models the
`& 0xFF` / `uint8_t` truncation of each byte. -/
def uint32ToBytes (value : Nat) : List Nat :=
  let v := value % 2 ^ 32
  [v / 2 ^ 24 % 256, v / 2 ^ 16 % 256, v / 2 ^ 8 % 256, v % 256]

/-- `ByteUtils::uint16ToBytes`: big-endian 2-byte encoding of a `uint16_t`. -/
def uint16ToBytes (value : Nat) : List Nat :=
  let v := value % 2 ^ 16
  [v / 2 ^ 8 % 256, v % 256]

/-- `ByteUtils::bytesToUint32` (convenience overload): reads 4 big-endian
bytes at `offset`, returning 0 when fewer than `offset + 4` bytes exist.
The source combines the shifted bytes with `|`; as the four byte fields
occupy disjoint bit ranges this equals the sum used here.  `% 256` models
the `uint8_t` element type of the source vector. -/
def bytesToUint32 (bytes : List Nat) (offset : Nat) : Nat :=
  if bytes.length < offset + 4 then 0
  else
    bytes.getD offset 0 % 256 * 2 ^ 24 + bytes.getD (offset + 1) 0 % 256 * 2 ^ 16 +
      bytes.getD (offset + 2) 0 % 256 * 2 ^ 8 + bytes.getD (offset + 3) 0 % 256

/-- `ByteUtils::bytesToUint16` (convenience overload): reads 2 big-endian
bytes at `offset`, returning 0 on insufficient data. -/
def bytesToUint16 (bytes : List Nat) (offset : Nat) : Nat :=
  if bytes.length < offset + 2 then 0
  else bytes.getD offset 0 % 256 * 2 ^ 8 + bytes.getD (offset + 1) 0 % 256

/-! ## Protocol constants (src/P2Pclipbord2/src/MessageProtocol.h) -/

def HEADER_SIZE : Nat := 19

def PROTOCOL_VERSION : Nat := 1

def BLE_MAX_CHUNK_SIZE : Nat := 512

/-- The 19-byte wire header followed by the payload, exactly as both
branches of `MessageProtocol::encodeMessage` assemble a frame:
`length:u32, version:u16, contentType:u8, transferId:u32, chunkIndex:u32,
totalChunks:u32, payload`. -/
def mkFrame (length version contentType transferId chunkIndex totalChunks : Nat)
    (payload : List Nat) : List Nat :=
  uint32ToBytes length ++ uint16ToBytes version ++ [contentType % 256] ++
    uint32ToBytes transferId ++ uint32ToBytes chunkIndex ++
    uint32ToBytes totalChunks ++ payload

/-! ## chunkedData (src/P2Pclipbord2/src/MessageProtocol.cpp, lines 272-302)

The source's `while (position < data.size())` loop is embedded with explicit
fuel because the inner UTF-8 backtracking can drive `endPos` all the way
down to `position`, in which case the loop never advances: `none` models a
run that makes no progress (the C++ loop never terminates there). -/

/-- The inner `while (endPos > position && (data[endPos] & 0xC0) == 0x80)
endPos--;` backtracking.  The fuel is `endPos - position`, so the fuel
running out is exactly the `endPos > position` guard failing. -/
def utf8Backtrack (data : List Nat) : Nat → Nat → Nat
  | 0, endPos => endPos
  | k + 1, endPos =>
    if data.getD endPos 0 &&& 0xC0 == 0x80 then utf8Backtrack data k (endPos - 1)
    else endPos

/-- One loop iteration's final `endPos`: `min(position + chunkSize,
data.size())`, backtracked over UTF-8 continuation bytes unless already at
the end of the data. -/
def nextEndPos (data : List Nat) (chunkSize position : Nat) : Nat :=
  let endPos := min (position + chunkSize) data.length
  if endPos < data.length then utf8Backtrack data (endPos - position) endPos
  else endPos

/-- The chunking loop with fuel; each iteration emits
`data[position, endPos)` and continues at `endPos`. -/
def chunkedGo (data : List Nat) (chunkSize : Nat) : Nat → Nat → Option (List (List Nat))
  | 0, _ => none
  | fuel + 1, position =>
    if position < data.length then
      let endPos := nextEndPos data chunkSize position
      match chunkedGo data chunkSize fuel endPos with
      | some rest => some (((data.drop position).take (endPos - position)) :: rest)
      | none => none
    else some []

/-- `MessageProtocol::chunkedData`.  A terminating run advances `position`
by at least one byte per iteration, so `data.length + 1` fuel suffices for
every terminating run; `none` therefore means the source loop diverges. -/
def chunkedData (data : List Nat) (chunkSize : Nat) : Option (List (List Nat)) :=
  chunkedGo data chunkSize (data.length + 1) 0

/-! ## ClipboardEncryption (src/P2Pclipbord2/src/ClipboardEncryption.cpp)

The BCrypt AES-256-GCM primitives and the system RNG are outside the
repository; they are abstracted as a `CryptoBackend` (the fresh random
nonce and the AEAD seal/open calls).  The key-guard logic, envelope
layout `nonce || ciphertext || tag` and the minimum-length check are the
source's. -/

structure CryptoBackend where
  /-- The 12-byte nonce `BCryptGenRandom` produces for this call. -/
  nonce : List Nat
  /-- `BCryptEncrypt` (GCM seal): key → nonce → plaintext →
  `(ciphertext, tag)`, `none` on failure. -/
  aeadEncrypt : List Nat → List Nat → List Nat → Option (List Nat × List Nat)
  /-- `BCryptDecrypt` (GCM open): key → nonce → ciphertext → tag →
  plaintext, `none` on tag mismatch. -/
  aeadDecrypt : List Nat → List Nat → List Nat → List Nat → Option (List Nat)

namespace ClipboardEncryption

/-- `ClipboardEncryption::encrypt`: fails (empty result) when no key is
set, otherwise returns `nonce || ciphertext || tag`. -/
def encrypt (B : CryptoBackend) (symmetricKey data : List Nat) : List Nat :=
  if symmetricKey = [] then []
  else
    match B.aeadEncrypt symmetricKey B.nonce data with
    | none => []
    | some (ciphertext, tag) => B.nonce ++ ciphertext ++ tag

/-- `ClipboardEncryption::decrypt`: fails when no key is set or the
envelope is shorter than 29 bytes; otherwise splits
`nonce(12) || ciphertext || tag(16)` and opens. -/
def decrypt (B : CryptoBackend) (symmetricKey encryptedData : List Nat) : List Nat :=
  if symmetricKey = [] then []
  else if encryptedData.length < 29 then []
  else
    let nonce := encryptedData.take 12
    let tag := encryptedData.drop (encryptedData.length - 16)
    let ciphertext := (encryptedData.drop 12).take (encryptedData.length - 28)
    match B.aeadDecrypt symmetricKey nonce ciphertext tag with
    | none => []
    | some plaintext => plaintext

/-- The process-wide state of `ClipboardEncryption`: the stored symmetric
key (empty = absent). -/
structure EncState where
  symmetricKey : List Nat
deriving DecidableEq

/-- State-passing form of `encrypt`: the source function only reads the
static `symmetricKey`, never writes it, so the state is returned as-is. -/
def encryptS (B : CryptoBackend) (st : EncState) (data : List Nat) :
    EncState × List Nat :=
  (st, encrypt B st.symmetricKey data)

/-- State-passing form of `decrypt` (reads the key, never writes it). -/
def decryptS (B : CryptoBackend) (st : EncState) (encryptedData : List Nat) :
    EncState × List Nat :=
  (st, decrypt B st.symmetricKey encryptedData)

end ClipboardEncryption

/-! ## MessageProtocol (src/P2Pclipbord2/src/MessageProtocol.cpp)

`std::map` is modelled as an association list with unique keys (iteration
order over the map is irrelevant to every property below); the per-transfer
`std::vector<MessageChunk>` keeps arrival order, as in the source. -/

/-- `MessageProtocol::MessageChunk`. -/
structure MessageChunk where
  contentType : Nat
  transferId : Nat
  chunkIndex : Nat
  totalChunks : Nat
  payload : List Nat
deriving DecidableEq

/-- `MessageProtocol::Message`. -/
structure Message where
  contentType : Nat
  transferId : Nat
  payload : List Nat
deriving DecidableEq

/-- The static mutable state of `MessageProtocol`: the two `std::map`s
keyed by `transferId`. -/
structure ProtocolState where
  partialMessages : List (Nat × List MessageChunk)
  partialMessageTimestamps : List (Nat × Nat)
deriving DecidableEq

/-- `m.find(k)` on an association list with unique keys. -/
def assocFind? {α : Type} : List (Nat × α) → Nat → Option α
  | [], _ => none
  | (k', v) :: rest, k => if k' = k then some v else assocFind? rest k

/-- `m[k] = v` on an association list with unique keys. -/
def assocSet {α : Type} : List (Nat × α) → Nat → α → List (Nat × α)
  | [], k, v => [(k, v)]
  | (k', v') :: rest, k, v =>
    if k' = k then (k, v) :: rest else (k', v') :: assocSet rest k v

/-- `m.erase(k)` on an association list with unique keys. -/
def assocErase {α : Type} : List (Nat × α) → Nat → List (Nat × α)
  | [], _ => []
  | (k', v') :: rest, k => if k' = k then rest else (k', v') :: assocErase rest k

/-- The `std::sort` call of `decodeData`, comparator
`a.chunkIndex < b.chunkIndex`.  Insertion sort is a faithful model:
on chunk lists whose indices are pairwise distinct (the only case the
protocol's own sender produces) every comparison sort agrees, and
`std::sort` leaves the order of equal keys unspecified anyway. -/
def sortChunks (chunks : List MessageChunk) : List MessageChunk :=
  chunks.insertionSort (fun a b => a.chunkIndex ≤ b.chunkIndex)

/-- `MessageProtocol::decodeData`.  `decryptFn` stands for
`ClipboardEncryption::decrypt` with the process key
(instantiate with `ClipboardEncryption.decrypt B key`); `now` is
`getCurrentTimeMillis()` at this call.  Returns the updated static state
and the decoded message (`none` = the source's `nullptr`). -/
def decodeData (decryptFn : List Nat → List Nat) (now : Nat) (st : ProtocolState)
    (data : List Nat) : ProtocolState × Option Message :=
  if data.length < HEADER_SIZE then (st, none)
  else
    let version := bytesToUint16 data 4
    let typeRaw := data.getD 6 0
    let transferId := bytesToUint32 data 7
    let chunkIndex := bytesToUint32 data 11
    let totalChunks := bytesToUint32 data 15
    if typeRaw < 1 ∨ 6 < typeRaw then (st, none)
    else if totalChunks = 1 then
      let payload := data.drop HEADER_SIZE
      let decryptedPayload := decryptFn payload
      if decryptedPayload ≠ [] then (st, some ⟨typeRaw, transferId, decryptedPayload⟩)
      else (st, none)
    else
      -- both the `version == 1` branch (HEADER_SIZE_V1 = 19) and the other
      -- branch (HEADER_SIZE = 19) drop 19 header bytes
      let chunkPayload := if version = 1 then data.drop 19 else data.drop HEADER_SIZE
      let chunk : MessageChunk := ⟨typeRaw, transferId, chunkIndex, totalChunks, chunkPayload⟩
      let timestamps := assocSet st.partialMessageTimestamps transferId now
      let stored := ((assocFind? st.partialMessages transferId).getD []) ++ [chunk]
      let messages := assocSet st.partialMessages transferId stored
      if stored.length = totalChunks then
        let fullPayload := ((sortChunks stored).map MessageChunk.payload).flatten
        let decryptedPayload := decryptFn fullPayload
        if decryptedPayload ≠ [] then
          (⟨assocErase messages transferId, assocErase timestamps transferId⟩,
            some ⟨typeRaw, transferId, decryptedPayload⟩)
        else (⟨messages, timestamps⟩, none)
      else (⟨messages, timestamps⟩, none)

/-- Feeding a sequence of received packets to `decodeData` in order; the
returned option is the last call's result. -/
def processAll (decryptFn : List Nat → List Nat) (now : Nat) (st : ProtocolState)
    (frames : List (List Nat)) : ProtocolState × Option Message :=
  frames.foldl (fun acc f => decodeData decryptFn now acc.1 f) (st, none)

/-- `uint64_t` subtraction `a - b` (wrapping), operands reduced mod `2^64`. -/
def wsub64 (a b : Nat) : Nat := (2 ^ 64 + a % 2 ^ 64 - b % 2 ^ 64) % 2 ^ 64

/-- `MessageProtocol::cleanupPartialMessages`: collect the ids whose age
`currentTime - lastUpdated` (in `uint64_t` arithmetic) strictly exceeds
`olderThanMilliseconds`, then erase each id from both maps. -/
def cleanupPartialMessages (now olderThanMilliseconds : Nat) (st : ProtocolState) :
    ProtocolState :=
  let idsToRemove :=
    (st.partialMessageTimestamps.filter
      (fun e => decide (olderThanMilliseconds < wsub64 now e.2))).map Prod.fst
  ⟨idsToRemove.foldl assocErase st.partialMessages,
    idsToRemove.foldl assocErase st.partialMessageTimestamps⟩

/-- Transport selector (`TransportType` in MessageProtocol.h). -/
inductive TransportType where
  | BLE
  | TCP
deriving DecidableEq

/-- `MessageProtocol::encodeMessage`.  `encryptFn` stands for
`ClipboardEncryption::encrypt` with the process key; `transferId` is the
value `generateTransferId()` returned for this call (the static counter is
passed explicitly).  `none` models the BLE branch inheriting
`chunkedData`'s divergence; note that both branches frame the ORIGINAL
`payload` bytes — `encryptedPayload` is computed, checked for emptiness,
and then unused. -/
def encodeMessage (encryptFn : List Nat → List Nat) (transferId : Nat)
    (contentType : Nat) (payload : List Nat) (transport : TransportType) :
    Option (List (List Nat)) :=
  let encryptedPayload := encryptFn payload
  if encryptedPayload = [] then some []
  else
    match transport with
    | .TCP =>
      some [mkFrame ((HEADER_SIZE + payload.length) % 2 ^ 32) PROTOCOL_VERSION
        contentType transferId 0 1 payload]
    | .BLE =>
      match chunkedData payload BLE_MAX_CHUNK_SIZE with
      | none => none
      | some chunks =>
        let totalChunks := chunks.length
        some ((List.range totalChunks).map fun index =>
          mkFrame ((HEADER_SIZE + (chunks.getD index []).length) % 2 ^ 32)
            PROTOCOL_VERSION contentType transferId index totalChunks
            (chunks.getD index []))

/-- A concrete `CryptoBackend` used to evaluate the protocol at concrete
inputs: the AEAD that copies the plaintext as ciphertext with an all-zero
tag and always opens.  (Counterexamples below depend only on envelope
lengths and the key guard, which this backend shares with AES-256-GCM.) -/
def toyBackend : CryptoBackend where
  nonce := List.replicate 12 0
  aeadEncrypt := fun _ _ plaintext => some (plaintext, List.replicate 16 0)
  aeadDecrypt := fun _ _ ciphertext _ => some ciphertext

/-! ## Header-layout lemmas -/

theorem mkFrame_length (L V C T I N : Nat) (p : List Nat) :
    (mkFrame L V C T I N p).length = 19 + p.length := by
  simp only [mkFrame, uint32ToBytes, uint16ToBytes, List.append_assoc, List.length_append,
    List.length_cons, List.length_nil]
  omega

theorem mkFrame_getD6 (L V C T I N : Nat) (p : List Nat) :
    (mkFrame L V C T I N p).getD 6 0 = C % 256 := rfl

theorem mkFrame_drop19 (L V C T I N : Nat) (p : List Nat) :
    (mkFrame L V C T I N p).drop 19 = p := rfl

theorem bytesToUint16_mkFrame4 (L V C T I N : Nat) (p : List Nat) :
    bytesToUint16 (mkFrame L V C T I N p) 4 = V % 2 ^ 16 := by
  rw [bytesToUint16, if_neg (by rw [mkFrame_length]; omega)]
  have h0 : (mkFrame L V C T I N p).getD 4 0 = V % 2 ^ 16 / 2 ^ 8 % 256 := rfl
  have h1 : (mkFrame L V C T I N p).getD 5 0 = V % 2 ^ 16 % 256 := rfl
  rw [h0, h1]
  omega

theorem bytesToUint32_mkFrame7 (L V C T I N : Nat) (p : List Nat) :
    bytesToUint32 (mkFrame L V C T I N p) 7 = T % 2 ^ 32 := by
  rw [bytesToUint32, if_neg (by rw [mkFrame_length]; omega)]
  have h0 : (mkFrame L V C T I N p).getD 7 0 = T % 2 ^ 32 / 2 ^ 24 % 256 := rfl
  have h1 : (mkFrame L V C T I N p).getD 8 0 = T % 2 ^ 32 / 2 ^ 16 % 256 := rfl
  have h2 : (mkFrame L V C T I N p).getD 9 0 = T % 2 ^ 32 / 2 ^ 8 % 256 := rfl
  have h3 : (mkFrame L V C T I N p).getD 10 0 = T % 2 ^ 32 % 256 := rfl
  rw [h0, h1, h2, h3]
  omega

theorem bytesToUint32_mkFrame11 (L V C T I N : Nat) (p : List Nat) :
    bytesToUint32 (mkFrame L V C T I N p) 11 = I % 2 ^ 32 := by
  rw [bytesToUint32, if_neg (by rw [mkFrame_length]; omega)]
  have h0 : (mkFrame L V C T I N p).getD 11 0 = I % 2 ^ 32 / 2 ^ 24 % 256 := rfl
  have h1 : (mkFrame L V C T I N p).getD 12 0 = I % 2 ^ 32 / 2 ^ 16 % 256 := rfl
  have h2 : (mkFrame L V C T I N p).getD 13 0 = I % 2 ^ 32 / 2 ^ 8 % 256 := rfl
  have h3 : (mkFrame L V C T I N p).getD 14 0 = I % 2 ^ 32 % 256 := rfl
  rw [h0, h1, h2, h3]
  omega

theorem bytesToUint32_mkFrame15 (L V C T I N : Nat) (p : List Nat) :
    bytesToUint32 (mkFrame L V C T I N p) 15 = N % 2 ^ 32 := by
  rw [bytesToUint32, if_neg (by rw [mkFrame_length]; omega)]
  have h0 : (mkFrame L V C T I N p).getD 15 0 = N % 2 ^ 32 / 2 ^ 24 % 256 := rfl
  have h1 : (mkFrame L V C T I N p).getD 16 0 = N % 2 ^ 32 / 2 ^ 16 % 256 := rfl
  have h2 : (mkFrame L V C T I N p).getD 17 0 = N % 2 ^ 32 / 2 ^ 8 % 256 := rfl
  have h3 : (mkFrame L V C T I N p).getD 18 0 = N % 2 ^ 32 % 256 := rfl
  rw [h0, h1, h2, h3]
  omega

/-- How `decodeData` acts on one well-formed frame, for arbitrary header
field values: the version field is read but never influences the result
(both payload-extraction branches drop 19 bytes), and the `length` field is
read but unused. -/
theorem decodeData_mkFrame (d : List Nat → List Nat) (now : Nat) (st : ProtocolState)
    (L V C T I N : Nat) (p : List Nat) :
    decodeData d now st (mkFrame L V C T I N p) =
      if C % 256 < 1 ∨ 6 < C % 256 then (st, none)
      else if N % 2 ^ 32 = 1 then
        if d p ≠ [] then (st, some ⟨C % 256, T % 2 ^ 32, d p⟩) else (st, none)
      else
        let chunk : MessageChunk := ⟨C % 256, T % 2 ^ 32, I % 2 ^ 32, N % 2 ^ 32, p⟩
        let timestamps := assocSet st.partialMessageTimestamps (T % 2 ^ 32) now
        let stored := ((assocFind? st.partialMessages (T % 2 ^ 32)).getD []) ++ [chunk]
        let messages := assocSet st.partialMessages (T % 2 ^ 32) stored
        if stored.length = N % 2 ^ 32 then
          let dec := d (((sortChunks stored).map MessageChunk.payload).flatten)
          if dec ≠ [] then
            (⟨assocErase messages (T % 2 ^ 32), assocErase timestamps (T % 2 ^ 32)⟩,
              some ⟨C % 256, T % 2 ^ 32, dec⟩)
          else (⟨messages, timestamps⟩, none)
        else (⟨messages, timestamps⟩, none) := by
  rw [decodeData, if_neg (by rw [mkFrame_length]; simp [HEADER_SIZE])]
  simp only [HEADER_SIZE, bytesToUint16_mkFrame4, mkFrame_getD6, bytesToUint32_mkFrame7,
    bytesToUint32_mkFrame11, bytesToUint32_mkFrame15, mkFrame_drop19, ite_self]

/-! ## Concrete inputs used to evaluate the protocol -/

/-- The bytes of `"Hello, world!"` (the spec's Scenario A payload and the
repository's own round-trip test input). -/
def helloPayload : List Nat := [72, 101, 108, 108, 111, 44, 32, 87, 111, 114, 108, 100, 33]

/-- 512 ASCII `'A'` bytes followed by one UTF-8 continuation byte `0x80`:
crosses the 512-byte chunk limit with a continuation byte at the boundary. -/
def p513 : List Nat := List.replicate 512 65 ++ [128]

/-- 513 UTF-8 continuation bytes `0x80`: the backtracking loop of
`chunkedData` runs `endPos` all the way down to `position`. -/
def d513 : List Nat := List.replicate 513 128

/-! ## Claim theorems -/

/-- C9: whenever no symmetric key is set, `encrypt` and `decrypt` both fail
deterministically with an empty result and leave the global state (the
stored key) unchanged — for every backend and every input. -/
theorem no_key_encrypt_decrypt_fail (B : CryptoBackend) (st : ClipboardEncryption.EncState)
    (data env : List Nat) (h : st.symmetricKey = []) :
    ClipboardEncryption.encryptS B st data = (st, []) ∧
    ClipboardEncryption.decryptS B st env = (st, []) := by
  simp [ClipboardEncryption.encryptS, ClipboardEncryption.decryptS,
    ClipboardEncryption.encrypt, ClipboardEncryption.decrypt, h]

/-- C9 witness: the theorem applied at a concrete backend, empty-key state
and concrete inputs. -/
theorem no_key_encrypt_decrypt_fail_witness :
    ClipboardEncryption.encryptS toyBackend ⟨[]⟩ [1, 2, 3] = (⟨[]⟩, []) ∧
    ClipboardEncryption.decryptS toyBackend ⟨[]⟩ [4, 5] = (⟨[]⟩, []) :=
  no_key_encrypt_decrypt_fail toyBackend ⟨[]⟩ [1, 2, 3] [4, 5] rfl

/-- C1 (code bug): with a key set, the reliable-transport (TCP) branch of
`encodeMessage` does emit exactly one frame with `chunkIndex = 0` and
`totalChunks = 1`, but the frame's payload is the ORIGINAL plaintext, not
the encrypted `CipherEnvelope` (31 bytes here), and its `length` field is
`19 + 3 = 22`, not `19 +` the envelope length: the computed
`encryptedPayload` is discarded. -/
theorem tcp_frame_payload_is_plaintext :
    encodeMessage (ClipboardEncryption.encrypt toyBackend [1]) 0 1 [1, 2, 3] .TCP =
      some [mkFrame 22 1 1 0 0 1 [1, 2, 3]] ∧
    (mkFrame 22 1 1 0 0 1 [1, 2, 3]).drop 19 = [1, 2, 3] ∧
    (ClipboardEncryption.encrypt toyBackend [1] [1, 2, 3]).length = 31 ∧
    ([1, 2, 3] : List Nat) ≠ ClipboardEncryption.encrypt toyBackend [1] [1, 2, 3] ∧
    bytesToUint32 (mkFrame 22 1 1 0 0 1 [1, 2, 3]) 0 = 22 ∧
    22 ≠ 19 + (ClipboardEncryption.encrypt toyBackend [1] [1, 2, 3]).length := by
  decide

/-- C2 (code bug): the encode/decode round trip fails on the repository's
own test payload `"Hello, world!"` for EVERY crypto backend and key: the
encoder frames the 13 plaintext bytes, and `decodeData` unconditionally
runs `decrypt` on them, which rejects any input shorter than 29 bytes, so
no `Message` is ever produced (the source test asserts the opposite). -/
theorem tcp_roundtrip_fails (B : CryptoBackend) (key : List Nat) (tid now : Nat)
    (st : ProtocolState)
    (henc : ClipboardEncryption.encrypt B key helloPayload ≠ []) :
    ∃ frames,
      encodeMessage (ClipboardEncryption.encrypt B key) tid 1 helloPayload .TCP =
        some frames ∧
      frames.length = 1 ∧
      decodeData (ClipboardEncryption.decrypt B key) now st (frames.getD 0 []) =
        (st, none) := by
  have hdec : ClipboardEncryption.decrypt B key helloPayload = [] := by
    rw [ClipboardEncryption.decrypt]
    by_cases hk : key = []
    · rw [if_pos hk]
    · rw [if_neg hk, if_pos (by decide)]
  refine ⟨[mkFrame ((HEADER_SIZE + helloPayload.length) % 2 ^ 32) PROTOCOL_VERSION
    1 tid 0 1 helloPayload], ?_, rfl, ?_⟩
  · rw [encodeMessage, if_neg henc]
  · simp [decodeData_mkFrame, hdec]

/-- C2 witness: the round-trip failure instantiated at a concrete backend
and key (under which encryption does succeed). -/
theorem tcp_roundtrip_fails_witness :
    ClipboardEncryption.encrypt toyBackend [1] helloPayload ≠ [] ∧
    ∃ frames,
      encodeMessage (ClipboardEncryption.encrypt toyBackend [1]) 0 1 helloPayload .TCP =
        some frames ∧
      frames.length = 1 ∧
      decodeData (ClipboardEncryption.decrypt toyBackend [1]) 5 ⟨[], []⟩
        (frames.getD 0 []) = (⟨[], []⟩, none) :=
  ⟨by decide, tcp_roundtrip_fails toyBackend [1] 0 5 ⟨[], []⟩ (by decide)⟩

/-- C3 (code bug): with a key set, the constrained-transport (BLE) branch
does emit frames sharing one `transferId` with ascending `chunkIndex` and
a common `totalChunks`, but it splits the ORIGINAL plaintext, not the
encrypted envelope, and the split is content-dependent: on 512 × `'A'`
followed by `0x80` the first chunk is cut back to 511 bytes because the
byte at the 512-byte boundary is a UTF-8 continuation byte. -/
theorem ble_chunks_plaintext_content_dependent :
    encodeMessage (ClipboardEncryption.encrypt toyBackend [1]) 7 3 p513 .BLE =
      some [mkFrame 530 1 3 7 0 2 (List.replicate 511 65),
        mkFrame 21 1 3 7 1 2 [65, 128]] ∧
    (List.replicate 511 65).length = 511 ∧
    List.replicate 511 65 ++ [65, 128] = p513 ∧
    p513 ≠ ClipboardEncryption.encrypt toyBackend [1] p513 := by
  decide

/-! ## chunkedData lemmas (C4) -/

theorem utf8Backtrack_le (data : List Nat) :
    ∀ k endPos, utf8Backtrack data k endPos ≤ endPos := by
  intro k
  induction k with
  | zero => intro endPos; exact Nat.le_refl _
  | succ n ih =>
    intro endPos
    rw [utf8Backtrack]
    by_cases h : data.getD endPos 0 &&& 0xC0 == 0x80
    · rw [if_pos h]; exact Nat.le_trans (ih (endPos - 1)) (Nat.sub_le _ _)
    · rw [if_neg h]

theorem utf8Backtrack_ge (data : List Nat) :
    ∀ k endPos, endPos - k ≤ utf8Backtrack data k endPos := by
  intro k
  induction k with
  | zero => intro endPos; simp [utf8Backtrack]
  | succ n ih =>
    intro endPos
    rw [utf8Backtrack]
    by_cases h : data.getD endPos 0 &&& 0xC0 == 0x80
    · rw [if_pos h]
      have := ih (endPos - 1)
      omega
    · rw [if_neg h]; omega

theorem nextEndPos_bounds (data : List Nat) (chunkSize position : Nat)
    (h : position < data.length) :
    position ≤ nextEndPos data chunkSize position ∧
    nextEndPos data chunkSize position ≤ data.length ∧
    nextEndPos data chunkSize position ≤ position + chunkSize := by
  rw [nextEndPos]
  by_cases hlt : min (position + chunkSize) data.length < data.length
  · rw [if_pos hlt]
    have h1 := utf8Backtrack_le data (min (position + chunkSize) data.length - position)
      (min (position + chunkSize) data.length)
    have h2 := utf8Backtrack_ge data (min (position + chunkSize) data.length - position)
      (min (position + chunkSize) data.length)
    omega
  · rw [if_neg hlt]
    omega

/-- When one loop iteration fails to advance, the source loop repeats the
identical iteration forever: every fuel yields `none`. -/
theorem chunkedGo_stuck (data : List Nat) (chunkSize position : Nat)
    (h : position < data.length) (hstep : nextEndPos data chunkSize position = position) :
    ∀ fuel, chunkedGo data chunkSize fuel position = none := by
  intro fuel
  induction fuel with
  | zero => rfl
  | succ n ih =>
    rw [chunkedGo, if_pos h, hstep]
    simp only [ih]

/-- Every terminating run of the chunking loop returns chunks that cover
the remaining input exactly, each non-empty and at most `chunkSize` long. -/
theorem chunkedGo_sound (data : List Nat) (chunkSize : Nat) :
    ∀ fuel position chunks, chunkedGo data chunkSize fuel position = some chunks →
      chunks.flatten = data.drop position ∧
      ∀ c ∈ chunks, c ≠ [] ∧ c.length ≤ chunkSize := by
  intro fuel
  induction fuel with
  | zero => intro position chunks h; exact absurd h (by rw [chunkedGo]; exact Option.noConfusion)
  | succ n ih =>
    intro position chunks h
    rw [chunkedGo] at h
    by_cases hpos : position < data.length
    · rw [if_pos hpos] at h
      rcases hrec : chunkedGo data chunkSize n (nextEndPos data chunkSize position) with _ | rest
      · simp only [hrec] at h
        exact Option.noConfusion h
      · simp only [hrec] at h
        have hne : nextEndPos data chunkSize position ≠ position := by
          intro heq
          have hstuck := chunkedGo_stuck data chunkSize position hpos heq n
          rw [heq, hstuck] at hrec
          exact Option.noConfusion hrec
        obtain ⟨hb1, hb2, hb3⟩ := nextEndPos_bounds data chunkSize position hpos
        set e := nextEndPos data chunkSize position with he
        have hlt : position < e := by omega
        obtain ⟨hflat, hchunks⟩ := ih e rest hrec
        have hchunk : chunks = (data.drop position).take (e - position) :: rest :=
          ((Option.some.injEq _ _).mp h).symm
        subst hchunk
        constructor
        · show (data.drop position).take (e - position) ++ rest.flatten = data.drop position
          rw [hflat]
          have : data.drop e = (data.drop position).drop (e - position) := by
            rw [List.drop_drop]
            congr 1
            omega
          rw [this, List.take_append_drop]
        · intro c hc
          rcases List.mem_cons.mp hc with hc | hc
          · subst hc
            constructor
            · have hlen : ((data.drop position).take (e - position)).length = e - position := by
                rw [List.length_take, List.length_drop]
                omega
              intro hnil
              rw [hnil] at hlen
              simp at hlen
              omega
            · rw [List.length_take, List.length_drop]
              omega
          · exact hchunks c hc
    · rw [if_neg hpos] at h
      have hchunks : chunks = [] := ((Option.some.injEq _ _).mp h).symm
      subst hchunks
      refine ⟨?_, by intro c hc; exact absurd hc (List.not_mem_nil c)⟩
      rw [List.drop_eq_nil_of_le (by omega)]
      rfl

theorem getD_replicate128 : ∀ n i d, i < n → (List.replicate n (128 : Nat)).getD i d = 128 := by
  intro n
  induction n with
  | zero => intro i d h; exact absurd h (Nat.not_lt_zero i)
  | succ m ih =>
    intro i d h
    cases i with
    | zero => rfl
    | succ j => exact ih j d (by omega)

theorem utf8Backtrack_d513 : ∀ k e, e < 513 → utf8Backtrack d513 k e = e - k := by
  intro k
  induction k with
  | zero => intro e _; rw [utf8Backtrack, Nat.sub_zero]
  | succ m ih =>
    intro e h
    rw [utf8Backtrack, if_pos]
    · rw [ih (e - 1) (by omega)]
      omega
    · have hg : d513.getD e 0 = 128 := getD_replicate128 513 e 0 h
      rw [hg]
      decide

theorem nextEndPos_d513 : nextEndPos d513 512 0 = 0 := by
  have hlen : d513.length = 513 := by
    rw [d513, List.length_replicate]
  rw [nextEndPos, hlen]
  norm_num
  exact utf8Backtrack_d513 512 512 (by omega)

/-- C4 counterexample: on 513 consecutive UTF-8 continuation bytes the
first iteration backtracks `endPos` all the way to `position = 0`
(producing an empty chunk and no progress), so `chunkedData` never
terminates — refuting termination and non-emptiness as claimed. -/
theorem chunkedData_diverges :
    chunkedData d513 512 = none ∧ nextEndPos d513 512 0 = 0 ∧ 0 < d513.length := by
  have hlen : d513.length = 513 := by
    rw [d513, List.length_replicate]
  refine ⟨?_, nextEndPos_d513, by omega⟩
  rw [chunkedData]
  exact chunkedGo_stuck d513 512 0 (by omega) nextEndPos_d513 _

/-- C4 as amended: `chunkedData` need not terminate; on every terminating
run (a `some` result) the chunks are non-empty, at most `chunkSize = 512`
bytes each, and concatenate to the input. -/
theorem chunkedData_terminating_sound (data : List Nat) (chunkSize : Nat)
    (chunks : List (List Nat)) (h : chunkedData data chunkSize = some chunks) :
    chunks.flatten = data ∧ ∀ c ∈ chunks, c ≠ [] ∧ c.length ≤ chunkSize := by
  rw [chunkedData] at h
  obtain ⟨hflat, hc⟩ := chunkedGo_sound data chunkSize (data.length + 1) 0 chunks h
  exact ⟨by rw [hflat]; rfl, hc⟩

/-- C4 witness: the amended theorem applied to a concrete terminating run. -/
theorem chunkedData_terminating_sound_witness :
    chunkedData [1, 2, 3] 512 = some [[1, 2, 3]] ∧
    ([[1, 2, 3]] : List (List Nat)).flatten = [1, 2, 3] ∧
    ∀ c ∈ ([[1, 2, 3]] : List (List Nat)), c ≠ [] ∧ c.length ≤ 512 :=
  ⟨by decide, (chunkedData_terminating_sound [1, 2, 3] 512 [[1, 2, 3]] (by decide)).1,
    (chunkedData_terminating_sound [1, 2, 3] 512 [[1, 2, 3]] (by decide)).2⟩

/-! ## C5: the version field -/

/-- C5 counterexample: a frame whose version field is 7 (not the protocol
version 1) is decoded all the same — `decodeData` produces a completed
`Message` instead of treating the frame as a framing error.  The version
field is never validated. -/
theorem unknown_version_decoded :
    decodeData (ClipboardEncryption.decrypt toyBackend [5]) 0 ⟨[], []⟩
      (mkFrame 48 7 1 3 0 1 (List.replicate 29 1)) = (⟨[], []⟩, some ⟨1, 3, [1]⟩) ∧
    bytesToUint16 (mkFrame 48 7 1 3 0 1 (List.replicate 29 1)) 4 = 7 ∧
    (7 : Nat) ≠ PROTOCOL_VERSION := by
  decide

/-- C5 as amended: `decodeData` does not validate the version field at
all — its result on a frame is identical for every value of the version
field (the field is read, but only feeds two payload-extraction branches
that both drop the same 19 header bytes). -/
theorem decodeData_ignores_version (d : List Nat → List Nat) (now : Nat)
    (st : ProtocolState) (L V V' C T I N : Nat) (p : List Nat) :
    decodeData d now st (mkFrame L V C T I N p) =
      decodeData d now st (mkFrame L V' C T I N p) := by
  rw [decodeData_mkFrame, decodeData_mkFrame]

/-! ## C6: duplicate chunk indices -/

/-- C6 counterexample: delivering the same multi-chunk frame
(`chunkIndex = 0`, `totalChunks = 2`) twice: after the first delivery one
chunk is stored; the duplicate is COUNTED as the second chunk, triggering
reassembly of the duplicated payload into a completed message — instead
of overwriting the slot and leaving the transfer one chunk short. -/
theorem duplicate_chunk_triggers_reassembly :
    (decodeData (ClipboardEncryption.decrypt toyBackend [1]) 100 ⟨[], []⟩
        (mkFrame 34 1 1 5 0 2 (List.replicate 15 9))).2 = none ∧
    ((assocFind? (decodeData (ClipboardEncryption.decrypt toyBackend [1]) 100 ⟨[], []⟩
        (mkFrame 34 1 1 5 0 2 (List.replicate 15 9))).1.partialMessages 5).getD
      []).length = 1 ∧
    (decodeData (ClipboardEncryption.decrypt toyBackend [1]) 100
        (decodeData (ClipboardEncryption.decrypt toyBackend [1]) 100 ⟨[], []⟩
          (mkFrame 34 1 1 5 0 2 (List.replicate 15 9))).1
        (mkFrame 34 1 1 5 0 2 (List.replicate 15 9))).2 = some ⟨1, 5, [9, 9]⟩ := by
  decide

/-- C6 as amended: a multi-chunk frame whose `chunkIndex` is already
present for its `transferId` is APPENDED alongside the stored chunk
(no overwrite, no error), so duplicates do increase the received-chunk
count toward `totalChunks`. -/
theorem duplicate_chunk_appended (d : List Nat → List Nat) (now : Nat)
    (st : ProtocolState) (L V C T I N : Nat) (p : List Nat) (l : List MessageChunk)
    (hC1 : 1 ≤ C % 256) (hC6 : C % 256 ≤ 6) (hN : N % 2 ^ 32 ≠ 1)
    (hfound : assocFind? st.partialMessages (T % 2 ^ 32) = some l)
    (hdup : ∃ c ∈ l, c.chunkIndex = I % 2 ^ 32)
    (hcount : l.length + 1 ≠ N % 2 ^ 32) :
    decodeData d now st (mkFrame L V C T I N p) =
      (⟨assocSet st.partialMessages (T % 2 ^ 32)
          (l ++ [⟨C % 256, T % 2 ^ 32, I % 2 ^ 32, N % 2 ^ 32, p⟩]),
        assocSet st.partialMessageTimestamps (T % 2 ^ 32) now⟩, none) := by
  rw [decodeData_mkFrame, if_neg (by omega), if_neg hN]
  simp only [hfound, Option.getD_some]
  rw [if_neg (by simp only [List.length_append, List.length_cons, List.length_nil]; omega)]

/-- C6 witness: the amended theorem applied at a concrete store that
already holds a chunk with the arriving frame's `chunkIndex`. -/
theorem duplicate_chunk_appended_witness :
    decodeData (fun l => l) 77 ⟨[(5, [⟨1, 5, 0, 3, [9]⟩])], [(5, 50)]⟩
        (mkFrame 20 1 1 5 0 3 [8]) =
      (⟨assocSet [(5, [⟨1, 5, 0, 3, [9]⟩])] 5 [⟨1, 5, 0, 3, [9]⟩, ⟨1, 5, 0, 3, [8]⟩],
        assocSet [(5, 50)] 5 77⟩, none) :=
  duplicate_chunk_appended (fun l => l) 77 ⟨[(5, [⟨1, 5, 0, 3, [9]⟩])], [(5, 50)]⟩
    20 1 1 5 0 3 [8] [⟨1, 5, 0, 3, [9]⟩] (by decide) (by decide) (by decide) rfl
    ⟨⟨1, 5, 0, 3, [9]⟩, by simp, rfl⟩ (by decide)

/-! ## C10: the BLE sender's adaptive inter-frame delay
(src/Windows/src/BLEManager.cpp, `BLEManager::sendMessage`, lines 824-848)

`double bytesPerSecond = totalBytesSent * 1000.0 / elapsed` is modelled
over `ℚ`; at the inputs below every intermediate `double` value is an
integer far below 2^53, where IEEE double arithmetic is exact. -/

/-- `totalBytesSent * 1000.0 / elapsed`. -/
def bytesPerSecond (totalBytesSent elapsed : Nat) : ℚ :=
  totalBytesSent * 1000 / elapsed

/-- The three-tier delay selection: `< 5000 → 50`, `> 20000 → 1`,
otherwise `20` (both comparisons STRICT, as in the source). -/
def selectDelay (bps : ℚ) : Nat :=
  if bps < 5000 then 50 else if 20000 < bps then 1 else 20

/-- The claim's tier selection, following the spec's words: at most
5 KB/s → 50 ms, at least 20 KB/s → 1 ms, else 20 ms (boundaries
INCLUSIVE). -/
def claimedSelectDelay (bps : ℚ) : Nat :=
  if bps ≤ 5000 then 50 else if 20000 ≤ bps then 1 else 20

/-- The delay update after sending frame `i`: recomputed only when
`i > 0 && i % 5 == 0` and `elapsed > 0`, otherwise the current delay is
kept. -/
def updateDelay (i totalBytesSent elapsed current : Nat) : Nat :=
  if 0 < i ∧ i % 5 = 0 then
    if 0 < elapsed then selectDelay (bytesPerSecond totalBytesSent elapsed) else current
  else current

/-- `totalBytesSent` after `totalBytesSent += encodedChunks[i].size()`. -/
def totalSentThrough (sizes : List Nat) (i : Nat) : Nat :=
  (sizes.take (i + 1)).sum

/-- The value of `delayBetweenChunks` after the frame-`i` iteration of the
send loop (initial value 20; `elapsed i` is the measured milliseconds when
frame `i` was sent). -/
def delayAfter (sizes : List Nat) (elapsed : Nat → Nat) : Nat → Nat
  | 0 => updateDelay 0 (totalSentThrough sizes 0) (elapsed 0) 20
  | i + 1 => updateDelay (i + 1) (totalSentThrough sizes (i + 1)) (elapsed (i + 1))
      (delayAfter sizes elapsed i)

/-- C10 counterexample: at a throughput of exactly 5000 bytes/s (and
exactly 20000 bytes/s) the sender keeps the 20 ms default delay, whereas
the claim's inclusive tiers demand 50 ms (respectively 1 ms). -/
theorem delay_tier_boundary_strict :
    delayAfter (List.replicate 6 1000) (fun _ => 1200) 5 = 20 ∧
    bytesPerSecond (totalSentThrough (List.replicate 6 1000) 5) 1200 = 5000 ∧
    claimedSelectDelay 5000 = 50 ∧
    delayAfter (List.replicate 6 4000) (fun _ => 1200) 5 = 20 ∧
    bytesPerSecond (totalSentThrough (List.replicate 6 4000) 5) 1200 = 20000 ∧
    claimedSelectDelay 20000 = 1 := by
  refine ⟨?_, ?_, ?_, ?_, ?_, ?_⟩
  · simp [delayAfter, updateDelay, selectDelay, bytesPerSecond, totalSentThrough]
    norm_num
  · norm_num [bytesPerSecond, totalSentThrough]
  · norm_num [claimedSelectDelay]
  · simp [delayAfter, updateDelay, selectDelay, bytesPerSecond, totalSentThrough]
    norm_num
  · norm_num [bytesPerSecond, totalSentThrough]
  · norm_num [claimedSelectDelay]

/-- C10 as amended: after every frame `i` with `i > 0`, `i % 5 = 0` and a
positive elapsed time, the selected delay is 50 ms when the throughput
estimate is STRICTLY below 5000 bytes/s, 1 ms when STRICTLY above
20000 bytes/s, and 20 ms otherwise (boundaries included). -/
theorem delay_tiers (sizes : List Nat) (elapsed : Nat → Nat) (i : Nat)
    (h0 : 0 < i) (h5 : i % 5 = 0) (he : 0 < elapsed i) :
    delayAfter sizes elapsed i =
      if bytesPerSecond (totalSentThrough sizes i) (elapsed i) < 5000 then 50
      else if 20000 < bytesPerSecond (totalSentThrough sizes i) (elapsed i) then 1
      else 20 := by
  obtain ⟨j, rfl⟩ : ∃ j, i = j + 1 := ⟨i - 1, by omega⟩
  rw [delayAfter, updateDelay, if_pos ⟨h0, h5⟩, if_pos he, selectDelay]

/-- C10 witness: the amended theorem applied at a concrete fast transfer. -/
theorem delay_tiers_witness :
    delayAfter (List.replicate 6 100) (fun _ => 1) 5 =
      if bytesPerSecond (totalSentThrough (List.replicate 6 100) 5) 1 < 5000 then 50
      else if 20000 < bytesPerSecond (totalSentThrough (List.replicate 6 100) 5) 1 then 1
      else 20 :=
  delay_tiers (List.replicate 6 100) (fun _ => 1) 5 (by decide) (by decide) (by decide)

/-! ## C8: the staleness sweep -/

theorem wsub64_of_le (a b : Nat) (hb : b ≤ a) (ha : a < 2 ^ 64) :
    wsub64 a b = a - b := by
  rw [wsub64]
  omega

theorem assocErase_keys_sublist {α : Type} (m : List (Nat × α)) (k : Nat) :
    ((assocErase m k).map Prod.fst).Sublist (m.map Prod.fst) := by
  induction m with
  | nil => exact List.Sublist.refl _
  | cons e rest ih =>
    rw [assocErase]
    by_cases h : e.1 = k
    · rw [if_pos h]
      exact List.sublist_cons_self _ _
    · rw [if_neg h, List.map_cons, List.map_cons]
      exact ih.cons₂ _

theorem mem_assocErase {α : Type} (m : List (Nat × α)) (k : Nat) (e : Nat × α)
    (hnodup : (m.map Prod.fst).Nodup) :
    e ∈ assocErase m k ↔ e ∈ m ∧ e.1 ≠ k := by
  induction m with
  | nil => simp [assocErase]
  | cons x rest ih =>
    rw [List.map_cons, List.nodup_cons] at hnodup
    rw [assocErase]
    by_cases h : x.1 = k
    · rw [if_pos h]
      constructor
      · intro hmem
        refine ⟨List.mem_cons_of_mem x hmem, ?_⟩
        intro hk
        apply hnodup.1
        have hin : e.1 ∈ List.map Prod.fst rest := List.mem_map_of_mem Prod.fst hmem
        rwa [hk, ← h] at hin
      · rintro ⟨hmem, hne⟩
        rcases List.mem_cons.mp hmem with rfl | hmem
        · exact absurd h hne
        · exact hmem
    · rw [if_neg h]
      constructor
      · intro hmem
        rcases List.mem_cons.mp hmem with rfl | hmem
        · exact ⟨List.mem_cons_self _ _, h⟩
        · obtain ⟨h1, h2⟩ := (ih hnodup.2).mp hmem
          exact ⟨List.mem_cons_of_mem x h1, h2⟩
      · rintro ⟨hmem, hne⟩
        rcases List.mem_cons.mp hmem with rfl | hmem
        · exact List.mem_cons_self _ _
        · exact List.mem_cons_of_mem x ((ih hnodup.2).mpr ⟨hmem, hne⟩)

theorem mem_foldl_assocErase {α : Type} (ids : List Nat) :
    ∀ (m : List (Nat × α)) (e : Nat × α), (m.map Prod.fst).Nodup →
      (e ∈ ids.foldl assocErase m ↔ e ∈ m ∧ e.1 ∉ ids) := by
  induction ids with
  | nil => intro m e _; simp
  | cons i rest ih =>
    intro m e hnodup
    rw [List.foldl_cons,
      ih (assocErase m i) e ((assocErase_keys_sublist m i).nodup hnodup),
      mem_assocErase m i e hnodup, List.mem_cons]
    constructor
    · rintro ⟨⟨h1, h2⟩, h3⟩
      exact ⟨h1, by rintro (rfl | hc); exacts [h2 rfl, h3 hc]⟩
    · rintro ⟨h1, h2⟩
      exact ⟨⟨h1, fun hk => h2 (Or.inl hk)⟩, fun hc => h2 (Or.inr hc)⟩

/-- C8: after `cleanupPartialMessages(maxAge)` at time `now` (with every
stored timestamp in the past, as the source's monotone clock guarantees),
no transfer whose last update is strictly older than `maxAge` remains in
either map, and every transfer at or under the threshold is untouched in
both maps. -/
theorem cleanup_removes_exactly_stale (now maxAge : Nat) (st : ProtocolState)
    (hnow : now < 2 ^ 64)
    (hts : ∀ e ∈ st.partialMessageTimestamps, e.2 ≤ now)
    (hnodupT : (st.partialMessageTimestamps.map Prod.fst).Nodup)
    (hnodupP : (st.partialMessages.map Prod.fst).Nodup) :
    (∀ e ∈ (cleanupPartialMessages now maxAge st).partialMessageTimestamps,
       now - e.2 ≤ maxAge) ∧
    (∀ e ∈ st.partialMessageTimestamps, maxAge < now - e.2 →
       e ∉ (cleanupPartialMessages now maxAge st).partialMessageTimestamps ∧
       ∀ p ∈ (cleanupPartialMessages now maxAge st).partialMessages, p.1 ≠ e.1) ∧
    (∀ e ∈ st.partialMessageTimestamps, now - e.2 ≤ maxAge →
       e ∈ (cleanupPartialMessages now maxAge st).partialMessageTimestamps) ∧
    (∀ p ∈ st.partialMessages,
       (∀ e ∈ st.partialMessageTimestamps, e.1 = p.1 → now - e.2 ≤ maxAge) →
       p ∈ (cleanupPartialMessages now maxAge st).partialMessages) := by
  have hsub : ∀ e ∈ st.partialMessageTimestamps, wsub64 now e.2 = now - e.2 :=
    fun e he => wsub64_of_le now e.2 (hts e he) hnow
  set ids := (st.partialMessageTimestamps.filter
    (fun e => decide (maxAge < wsub64 now e.2))).map Prod.fst with hids
  have hmemids : ∀ i, i ∈ ids ↔
      ∃ e ∈ st.partialMessageTimestamps, maxAge < now - e.2 ∧ e.1 = i := by
    intro i
    rw [hids]
    constructor
    · intro hi
      obtain ⟨e, he, hei⟩ := List.mem_map.mp hi
      have hef := List.mem_filter.mp he
      refine ⟨e, hef.1, ?_, hei⟩
      have := of_decide_eq_true hef.2
      rwa [hsub e hef.1] at this
    · rintro ⟨e, he, hage, rfl⟩
      exact List.mem_map.mpr ⟨e, List.mem_filter.mpr
        ⟨he, decide_eq_true (by rwa [hsub e he])⟩, rfl⟩
  have hT : ∀ e, e ∈ (cleanupPartialMessages now maxAge st).partialMessageTimestamps ↔
      e ∈ st.partialMessageTimestamps ∧ e.1 ∉ ids := by
    intro e
    rw [cleanupPartialMessages]
    exact mem_foldl_assocErase ids st.partialMessageTimestamps e hnodupT
  have hP : ∀ p, p ∈ (cleanupPartialMessages now maxAge st).partialMessages ↔
      p ∈ st.partialMessages ∧ p.1 ∉ ids := by
    intro p
    rw [cleanupPartialMessages]
    exact mem_foldl_assocErase ids st.partialMessages p hnodupP
  refine ⟨?_, ?_, ?_, ?_⟩
  · intro e he
    obtain ⟨hmem, hnotin⟩ := (hT e).mp he
    by_contra hage
    exact hnotin ((hmemids e.1).mpr ⟨e, hmem, by omega, rfl⟩)
  · intro e he hage
    have hin : e.1 ∈ ids := (hmemids e.1).mpr ⟨e, he, hage, rfl⟩
    constructor
    · intro hc
      exact ((hT e).mp hc).2 hin
    · intro p hp
      intro hpe
      exact ((hP p).mp hp).2 (by rwa [hpe])
  · intro e he hage
    refine (hT e).mpr ⟨he, ?_⟩
    intro hin
    obtain ⟨e', he', hage', hkey⟩ := (hmemids e.1).mp hin
    have : e' = e := List.inj_on_of_nodup_map hnodupT he' he hkey
    subst this
    omega
  · intro p hp hfresh
    refine (hP p).mpr ⟨hp, ?_⟩
    intro hin
    obtain ⟨e, he, hage, hkey⟩ := (hmemids p.1).mp hin
    have := hfresh e he hkey
    omega

/-- C8 witness: the theorem applied at a concrete store holding one stale
transfer (age 590 > 100) and one fresh transfer (age 100 ≤ 100). -/
theorem cleanup_removes_exactly_stale_witness :
    (∀ e ∈ (cleanupPartialMessages 600 100
        ⟨[(1, [⟨1, 1, 0, 3, [7]⟩]), (2, [⟨1, 2, 0, 3, [8]⟩])],
         [(1, 10), (2, 500)]⟩).partialMessageTimestamps, 600 - e.2 ≤ 100) ∧
    (∀ e ∈ [(1, 10), (2, 500)], 100 < 600 - e.2 →
       e ∉ (cleanupPartialMessages 600 100
          ⟨[(1, [⟨1, 1, 0, 3, [7]⟩]), (2, [⟨1, 2, 0, 3, [8]⟩])],
           [(1, 10), (2, 500)]⟩).partialMessageTimestamps ∧
       ∀ p ∈ (cleanupPartialMessages 600 100
          ⟨[(1, [⟨1, 1, 0, 3, [7]⟩]), (2, [⟨1, 2, 0, 3, [8]⟩])],
           [(1, 10), (2, 500)]⟩).partialMessages, p.1 ≠ e.1) ∧
    (∀ e ∈ [(1, 10), (2, 500)], 600 - e.2 ≤ 100 →
       e ∈ (cleanupPartialMessages 600 100
          ⟨[(1, [⟨1, 1, 0, 3, [7]⟩]), (2, [⟨1, 2, 0, 3, [8]⟩])],
           [(1, 10), (2, 500)]⟩).partialMessageTimestamps) ∧
    (∀ p ∈ [(1, [⟨1, 1, 0, 3, [7]⟩]), (2, [⟨1, 2, 0, 3, [8]⟩])],
       (∀ e ∈ [(1, 10), (2, 500)], e.1 = p.1 → 600 - e.2 ≤ 100) →
       p ∈ (cleanupPartialMessages 600 100
          ⟨[(1, [⟨1, 1, 0, 3, [7]⟩]), (2, [⟨1, 2, 0, 3, [8]⟩])],
           [(1, 10), (2, 500)]⟩).partialMessages) :=
  cleanup_removes_exactly_stale 600 100
    ⟨[(1, [⟨1, 1, 0, 3, [7]⟩]), (2, [⟨1, 2, 0, 3, [8]⟩])], [(1, 10), (2, 500)]⟩
    (by decide) (by decide) (by decide) (by decide)

/-! ## C7: multi-chunk reassembly -/

/-- The `MessageChunk` that `decodeData` stores for a multi-chunk frame
with index `s.1` and payload `s.2`. -/
def chunkOf (ct tid tot : Nat) (s : Nat × List Nat) : MessageChunk :=
  ⟨ct, tid, s.1, tot, s.2⟩

/-- The wire frame of chunk `s` in a transfer of `tot` chunks, with the
header the encoder writes. -/
def frameOf (ct tid tot : Nat) (s : Nat × List Nat) : List Nat :=
  mkFrame (HEADER_SIZE + s.2.length) PROTOCOL_VERSION ct tid s.1 tot s.2

instance : IsTotal MessageChunk (fun a b => a.chunkIndex ≤ b.chunkIndex) :=
  ⟨fun a b => Nat.le_total a.chunkIndex b.chunkIndex⟩

instance : IsTrans MessageChunk (fun a b => a.chunkIndex ≤ b.chunkIndex) :=
  ⟨fun _ _ _ h1 h2 => Nat.le_trans h1 h2⟩

instance : IsAntisymm MessageChunk (fun a b => a.chunkIndex < b.chunkIndex) :=
  ⟨fun _ _ h1 h2 => absurd (Nat.lt_trans h1 h2) (Nat.lt_irrefl _)⟩

/-- On chunk lists with pairwise-distinct indices, the model's sort is THE
unique permutation ordered by strictly ascending `chunkIndex`. -/
theorem sortChunks_eq_of_sorted (l s : List MessageChunk)
    (hnodup : (l.map MessageChunk.chunkIndex).Nodup)
    (hperm : s.Perm l)
    (hsorted : s.Pairwise (fun a b => a.chunkIndex < b.chunkIndex)) :
    sortChunks l = s := by
  have hpA : (sortChunks l).Perm l := List.perm_insertionSort _ l
  have hsA : List.Pairwise (fun a b : MessageChunk => a.chunkIndex ≤ b.chunkIndex)
      (sortChunks l) := List.sorted_insertionSort _ l
  have hnodupA : ((sortChunks l).map MessageChunk.chunkIndex).Nodup :=
    ((hpA.map MessageChunk.chunkIndex).nodup_iff).mpr hnodup
  have hneA : List.Pairwise (fun a b : MessageChunk => a.chunkIndex ≠ b.chunkIndex)
      (sortChunks l) := List.pairwise_map.mp hnodupA
  have hltA : List.Pairwise (fun a b : MessageChunk => a.chunkIndex < b.chunkIndex)
      (sortChunks l) := (hsA.and hneA).imp fun h => Nat.lt_of_le_of_ne h.1 h.2
  exact List.eq_of_perm_of_sorted (hpA.trans hperm.symm) hltA hsorted

/-- `decodeData` on one multi-chunk frame of a transfer, with the header
fields below their machine bounds: the chunk is appended to the stored
list, and the transfer completes exactly when `totalChunks` is reached. -/
theorem decodeData_chunkFrame (d : List Nat → List Nat) (now : Nat)
    (st : ProtocolState) (ct tid tot : Nat) (s : Nat × List Nat)
    (hct1 : 1 ≤ ct) (hct6 : ct ≤ 6) (htid : tid < 2 ^ 32) (hidx : s.1 < 2 ^ 32)
    (htot : tot < 2 ^ 32) (htot1 : tot ≠ 1) :
    decodeData d now st (frameOf ct tid tot s) =
      (let stored := ((assocFind? st.partialMessages tid).getD []) ++ [chunkOf ct tid tot s]
       let messages := assocSet st.partialMessages tid stored
       let timestamps := assocSet st.partialMessageTimestamps tid now
       if stored.length = tot then
         let dec := d (((sortChunks stored).map MessageChunk.payload).flatten)
         if dec ≠ [] then
           (⟨assocErase messages tid, assocErase timestamps tid⟩, some ⟨ct, tid, dec⟩)
         else (⟨messages, timestamps⟩, none)
       else (⟨messages, timestamps⟩, none)) := by
  have hct : ct % 256 = ct := Nat.mod_eq_of_lt (by omega)
  have htidm : tid % 2 ^ 32 = tid := Nat.mod_eq_of_lt htid
  have hidxm : s.1 % 2 ^ 32 = s.1 := Nat.mod_eq_of_lt hidx
  have htotm : tot % 2 ^ 32 = tot := Nat.mod_eq_of_lt htot
  rw [frameOf, decodeData_mkFrame]
  simp only [hct, htidm, hidxm, htotm, chunkOf]
  rw [if_neg (by omega), if_neg htot1]

/-- Delivering the remaining chunks of a transfer whose first chunks are
already stored: every prefix call returns `nullptr`, and the call that
delivers the last chunk reassembles (sorted, concatenated), decrypts, and
on success erases the transfer from both maps. -/
theorem processAll_completes (d : List Nat → List Nat) (now ct tid tot : Nat)
    (hct1 : 1 ≤ ct) (hct6 : ct ≤ 6) (htid : tid < 2 ^ 32)
    (htot : tot < 2 ^ 32) (htot2 : 2 ≤ tot) :
    ∀ (rest : List (Nat × List Nat)) (acc : List MessageChunk) (t0 : Nat),
      rest ≠ [] → (∀ s ∈ rest, s.1 < 2 ^ 32) →
      acc.length + rest.length = tot →
      processAll d now ⟨[(tid, acc)], [(tid, t0)]⟩ (rest.map (frameOf ct tid tot)) =
        (if d (((sortChunks (acc ++ rest.map (chunkOf ct tid tot))).map
              MessageChunk.payload).flatten) ≠ [] then
           (⟨[], []⟩, some ⟨ct, tid,
             d (((sortChunks (acc ++ rest.map (chunkOf ct tid tot))).map
               MessageChunk.payload).flatten)⟩)
         else (⟨[(tid, acc ++ rest.map (chunkOf ct tid tot))], [(tid, now)]⟩, none)) := by
  intro rest
  induction rest with
  | nil => intro acc t0 hne _ _; exact absurd rfl hne
  | cons s rest' ih =>
    intro acc t0 _ hidx hcount
    have hstep := decodeData_chunkFrame d now ⟨[(tid, acc)], [(tid, t0)]⟩ ct tid tot s
      hct1 hct6 htid (hidx s (List.mem_cons_self _ _)) htot (by omega)
    simp only [assocFind?, assocSet, eq_self_iff_true, if_true, Option.getD_some] at hstep
    rw [List.map_cons, processAll, List.foldl_cons]
    cases rest' with
    | nil =>
      have hlen : (acc ++ [chunkOf ct tid tot s]).length = tot := by
        simp only [List.length_append, List.length_cons, List.length_nil] at hcount ⊢
        omega
      rw [if_pos hlen] at hstep
      simp only [List.map_nil, List.foldl_nil]
      show decodeData d now ⟨[(tid, acc)], [(tid, t0)]⟩ (frameOf ct tid tot s) = _
      rw [hstep]
      simp only [assocErase, eq_self_iff_true, if_true, List.map_cons, List.map_nil]
    | cons s' rest'' =>
      have hlen : (acc ++ [chunkOf ct tid tot s]).length ≠ tot := by
        simp only [List.length_append, List.length_cons, List.length_nil] at hcount ⊢
        omega
      rw [if_neg hlen] at hstep
      have hfirst : decodeData d now ⟨[(tid, acc)], [(tid, t0)]⟩ (frameOf ct tid tot s) =
          (⟨[(tid, acc ++ [chunkOf ct tid tot s])], [(tid, now)]⟩, none) := hstep
      show List.foldl _ (decodeData d now ⟨[(tid, acc)], [(tid, t0)]⟩
        (frameOf ct tid tot s)) _ = _
      rw [hfirst]
      have hrec := ih (acc ++ [chunkOf ct tid tot s]) now (by simp)
        (fun x hx => hidx x (List.mem_cons_of_mem s hx))
        (by simp only [List.length_append, List.length_cons, List.length_nil] at hcount ⊢; omega)
      rw [processAll] at hrec
      rw [List.map_cons] at hrec ⊢
      rw [hrec]
      simp only [List.append_assoc, List.singleton_append, List.map_cons]

/-- C7: a transfer of `totalChunks ≥ 2` chunks with pairwise-distinct
`chunkIndex` values, delivered to `decodeData` in ANY arrival order
(`specs`), reassembles once the last chunk arrives: the bytes handed to
decryption are the concatenation of the chunk payloads in ascending
`chunkIndex` order (`sorted` is the unique index-sorted reordering of
`specs`), and on successful decryption the transfer is erased from the
reassembly store. -/
theorem reassembly_order_independent (d : List Nat → List Nat) (now ct tid : Nat)
    (specs sorted : List (Nat × List Nat))
    (hct1 : 1 ≤ ct) (hct6 : ct ≤ 6) (htid : tid < 2 ^ 32)
    (hn2 : 2 ≤ specs.length) (hnlt : specs.length < 2 ^ 32)
    (hidx : ∀ s ∈ specs, s.1 < 2 ^ 32)
    (hnodup : (specs.map Prod.fst).Nodup)
    (hperm : sorted.Perm specs)
    (hsorted : sorted.Pairwise (fun a b => a.1 < b.1)) :
    processAll d now ⟨[], []⟩ (specs.map (frameOf ct tid specs.length)) =
      (if d ((sorted.map Prod.snd).flatten) ≠ [] then
         (⟨[], []⟩, some ⟨ct, tid, d ((sorted.map Prod.snd).flatten)⟩)
       else (⟨[(tid, specs.map (chunkOf ct tid specs.length))], [(tid, now)]⟩, none)) := by
  have hsort : sortChunks (specs.map (chunkOf ct tid specs.length)) =
      sorted.map (chunkOf ct tid specs.length) := by
    apply sortChunks_eq_of_sorted
    · rw [List.map_map]
      exact hnodup
    · exact hperm.map _
    · exact List.pairwise_map.mpr hsorted
  have hjoin : ((sorted.map (chunkOf ct tid specs.length)).map
      MessageChunk.payload).flatten = (sorted.map Prod.snd).flatten := by
    rw [List.map_map]
    rfl
  cases specs with
  | nil => simp at hn2
  | cons s rest =>
    have hn2' : 2 ≤ rest.length + 1 := by
      rw [← List.length_cons s]
      exact hn2
    have hstep := decodeData_chunkFrame d now ⟨[], []⟩ ct tid (s :: rest).length s
      hct1 hct6 htid (hidx s (List.mem_cons_self _ _)) hnlt (by omega)
    simp only [assocFind?, Option.getD_none, List.nil_append, assocSet] at hstep
    rw [if_neg (by simp only [List.length_cons, List.length_nil]; omega)] at hstep
    rw [List.map_cons, processAll, List.foldl_cons]
    show List.foldl _ (decodeData d now ⟨[], []⟩ (frameOf ct tid (s :: rest).length s)) _ = _
    rw [hstep]
    have hrec := processAll_completes d now ct tid (s :: rest).length hct1 hct6 htid hnlt
      (by omega) rest [chunkOf ct tid (s :: rest).length s] now
      (by intro h; rw [h] at hn2; simp at hn2)
      (fun x hx => hidx x (List.mem_cons_of_mem s hx))
      (by simp only [List.length_cons, List.length_nil]; omega)
    rw [processAll] at hrec
    rw [hrec, List.singleton_append, ← List.map_cons, hsort, hjoin]

/-- C7 witness: a 2-chunk transfer delivered in reverse order reassembles
to the ascending-index concatenation and is erased from the store. -/
theorem reassembly_order_independent_witness :
    processAll (fun l => l) 3 ⟨[], []⟩
        (([(1, [2, 3]), (0, [1])] : List (Nat × List Nat)).map
          (frameOf 1 9 ([(1, [2, 3]), (0, [1])] : List (Nat × List Nat)).length)) =
      (if (fun l : List Nat => l)
          ((([(0, [1]), (1, [2, 3])] : List (Nat × List Nat)).map Prod.snd).flatten) ≠ []
       then
         (⟨[], []⟩, some ⟨1, 9, (fun l : List Nat => l)
           ((([(0, [1]), (1, [2, 3])] : List (Nat × List Nat)).map Prod.snd).flatten)⟩)
       else
         (⟨[(9, ([(1, [2, 3]), (0, [1])] : List (Nat × List Nat)).map
             (chunkOf 1 9 ([(1, [2, 3]), (0, [1])] : List (Nat × List Nat)).length))],
           [(9, 3)]⟩, none)) :=
  reassembly_order_independent (fun l => l) 3 1 9
    [(1, [2, 3]), (0, [1])] [(0, [1]), (1, [2, 3])]
    (by decide) (by decide) (by decide) (by decide) (by decide)
    (by decide) (by decide) (by decide) (by decide)

end CrossOSClipboard
